import Mathlib

/-!
Verification of core GOLEM components against their specification:
the reward agent (fitness-rank-rate), the adaptive graph-depth parameter,
and the DAG utilities (cycle detection, node depth).
All definitions are shallow embeddings of the corresponding Python code.
-/

set_option maxHeartbeats 1000000
set_option autoImplicit false

namespace Golem

/-! ## RewardAgent (golem/core/optimisers/adaptive/reward_agent.py)

`get_decay_values_for_arms` accumulates, for every distinct arm, the sum of
the rewards attributed to that arm and multiplies it by the decaying
factor.  `get_fitness_rank_rate` turns the decayed values into
"fitness-rank-rate" values by dividing by the sum of absolute values;
when that sum is zero it returns the literal single-element list `[0]`
(the Python code returns `[0.]`).  Rewards are modelled as rationals. -/

def get_decay_values_for_arms (decaying_factor : ℚ) (rewards : List ℚ) (arms : List ℤ) :
    List ℤ × List ℚ :=
  let unique_arms := arms.dedup
  (unique_arms,
    unique_arms.map (fun a =>
      decaying_factor *
        ((List.zip arms rewards).foldl (fun acc pr => if pr.1 = a then acc + pr.2 else acc) 0)))

def get_fitness_rank_rate (decay_values : List ℚ) : List ℚ :=
  let total_decay_sum : ℚ := (decay_values.map (fun d => |d|)).sum
  if total_decay_sum ≠ 0 then decay_values.map (fun d => d / total_decay_sum) else [0]

/-! ## AdaptiveGraphDepth (golem/core/optimisers/genetic/parameters/graph_depth.py)

The constructor validates its bounds and raises `ValueError` (modelled as
`Except.error`) exactly as the Python `__init__` does; `next` implements
the transition rule, reading the improvement watcher's
`stagnation_iter_count` (passed explicitly here). -/

structure AdaptiveGraphDepth where
  start_depth : ℤ
  max_depth : ℤ
  current_depth : ℤ
  max_stagnation_gens : ℤ
  adaptive : Bool
deriving Repr, DecidableEq

def AdaptiveGraphDepth.init (start_depth max_depth max_stagnation_gens : Option ℤ)
    (adaptive : Bool) : Except String AdaptiveGraphDepth :=
  match start_depth with
  | none => Except.error "Uncorrect start_depth value: it should be greater than 0."
  | some sd =>
    if sd ≤ 0 then Except.error "Uncorrect start_depth value: it should be greater than 0."
    else
      match max_depth with
      | none => Except.error "Uncorrect max_depth value: it should be greater than start_depth."
      | some md =>
        if md < sd then
          Except.error "Uncorrect max_depth value: it should be greater than start_depth."
        else
          match max_stagnation_gens with
          | none => Except.error "Uncorrect max_stagnation_gens value: it should be greater than 0."
          | some ms =>
            if ms ≤ 0 then
              Except.error "Uncorrect max_stagnation_gens value: it should be greater than 0."
            else Except.ok ⟨sd, md, sd, ms, adaptive⟩

def AdaptiveGraphDepth.next (s : AdaptiveGraphDepth) (stagnation_iter_count : ℤ) :
    ℤ × AdaptiveGraphDepth :=
  if s.adaptive = false then (s.max_depth, s)
  else if s.max_depth ≤ s.current_depth then (s.current_depth, s)
  else if s.max_stagnation_gens ≤ stagnation_iter_count then
    (s.current_depth + 1, { s with current_depth := s.current_depth + 1 })
  else (s.current_depth, s)

/-- The depth values reported over a whole sequence of `next` calls
(one entry of observed stagnation per generation). -/
def AdaptiveGraphDepth.run (s : AdaptiveGraphDepth) : List ℤ → List ℤ
  | [] => []
  | stag :: rest =>
    let r := s.next stag
    r.1 :: r.2.run rest

/-- Bounds invariant of the depth state machine. -/
def AdaptiveGraphDepth.Valid (s : AdaptiveGraphDepth) : Prop :=
  s.start_depth ≤ s.current_depth ∧ s.current_depth ≤ s.max_depth

/-! ## The DAG data model (golem/core/dag/graph_utils.py)

A graph is a finite set of nodes (indices `Fin n`, which play the role of
the distinct `uid`s) with, for every node, its ordered parent list
`nodes_from`, plus the de-duplicated node list `nodes` that
`graph.nodes` exposes (every node exactly once, in some insertion
order). -/

structure Graph (n : ℕ) where
  nodes_from : Fin n → List (Fin n)
  nodes : List (Fin n)
  nodes_nodup : nodes.Nodup
  nodes_complete : ∀ v : Fin n, v ∈ nodes

variable {n : ℕ}

/-- One step of the parent relation: `p` is a parent of `u`. -/
def Edge (g : Graph n) (u p : Fin n) : Prop := p ∈ g.nodes_from u

/-- `Reaches g u v`: `v` lies on a parent chain starting at `u`. -/
def Reaches (g : Graph n) : Fin n → Fin n → Prop := Relation.ReflTransGen (Edge g)

/-- Some node's parent chain, followed transitively, revisits itself. -/
def HasCycle (g : Graph n) : Prop := ∃ v, Relation.TransGen (Edge g) v v

/-! ### graph_has_cycle: iterative depth-first search

`scanParents` embeds the inner `for parent in cur_node.nodes_from` loop:
unvisited parents are pushed, and a visited parent that is still
`on_stack` makes the whole function return `True` (modelled as `none`).
`dfsLoop` embeds the `while len(stack) > 0` loop (with explicit fuel,
shown sufficient below), and `dfsOuter` the outer `for node in
graph.nodes` loop.  The stack is a Lean list with its head as the top. -/

def scanParents (ps : List (Fin n)) (visited on_stack : Fin n → Bool)
    (stack : List (Fin n)) : Option (List (Fin n)) :=
  match ps with
  | [] => some stack
  | p :: rest =>
    if visited p = false then scanParents rest visited on_stack (p :: stack)
    else if on_stack p = true then none
    else scanParents rest visited on_stack stack

/-- The nodes pushed by one full parent scan (topmost first). -/
def pushList (vis : Fin n → Bool) (ps : List (Fin n)) : List (Fin n) :=
  (ps.filter (fun p => !vis p)).reverse

inductive LoopResult (n : ℕ) where
  | foundCycle : LoopResult n
  | completed (visited on_stack : Fin n → Bool) : LoopResult n
  | fuelOut : LoopResult n

def dfsLoop (g : Graph n) :
    ℕ → (Fin n → Bool) → (Fin n → Bool) → List (Fin n) → LoopResult n
  | _, visited, on_stack, [] => .completed visited on_stack
  | 0, _, _, _ :: _ => .fuelOut
  | fuel + 1, visited, on_stack, cur :: rest =>
    if visited cur = false then
      let visited' := Function.update visited cur true
      let on_stack' := Function.update on_stack cur true
      match scanParents (g.nodes_from cur) visited' on_stack' (cur :: rest) with
      | none => .foundCycle
      | some stack' => dfsLoop g fuel visited' on_stack' stack'
    else
      let on_stack' := Function.update on_stack cur false
      match scanParents (g.nodes_from cur) visited on_stack' rest with
      | none => .foundCycle
      | some stack' => dfsLoop g fuel visited on_stack' stack'

def dfsOuter (g : Graph n) (fuel : ℕ) :
    List (Fin n) → (Fin n → Bool) → (Fin n → Bool) → Option Bool
  | [], _, _ => some false
  | v :: rest, visited, on_stack =>
    if visited v = true then dfsOuter g fuel rest visited on_stack
    else
      match dfsLoop g fuel visited on_stack [v] with
      | .foundCycle => some true
      | .completed visited' on_stack' => dfsOuter g fuel rest visited' on_stack'
      | .fuelOut => none

/-- Upper bound on the length of any parent list. -/
def maxDeg (g : Graph n) : ℕ :=
  Finset.univ.sup (fun v : Fin n => (g.nodes_from v).length)

/-- Fuel shown sufficient for the whole search. -/
def fuelBound (g : Graph n) : ℕ := n * (maxDeg g + 2) + 2

def graph_has_cycle (g : Graph n) : Bool :=
  match dfsOuter g (fuelBound g) g.nodes (fun _ => false) (fun _ => false) with
  | some b => b
  | none => false

/-- Number of not-yet-visited nodes. -/
def unvisCount (visited : Fin n → Bool) : ℕ :=
  (Finset.univ.filter (fun v => visited v = false)).card

/-- Termination measure of the while loop. -/
def loopMeasure (g : Graph n) (visited : Fin n → Bool) (stack : List (Fin n)) : ℕ :=
  unvisCount visited * (maxDeg g + 2) + stack.length

/-! ### Invariants of the depth-first search

`GrayInv`: every `on_stack` ("gray") node `x` is visited, has no
self-loop, and sits on the stack with everything above its topmost copy
reachable from `x` and every parent of `x` either visited or above `x`.
`BlackTopo`: the finished ("black") nodes admit a topological order in
which every parent of a black node appears strictly earlier. -/

def GrayInv (g : Graph n) (visited on_stack : Fin n → Bool) (stk : List (Fin n)) : Prop :=
  ∀ x, on_stack x = true →
    visited x = true ∧ x ∉ g.nodes_from x ∧
    ∃ pre post, stk = pre ++ x :: post ∧ x ∉ pre ∧
      (∀ y ∈ pre, Reaches g x y) ∧
      (∀ p ∈ g.nodes_from x, visited p = true ∨ p ∈ pre)

def BlackTopo (g : Graph n) (visited on_stack : Fin n → Bool) : Prop :=
  ∃ b : List (Fin n), b.Nodup ∧
    (∀ x, x ∈ b ↔ (visited x = true ∧ on_stack x = false)) ∧
    ∀ u ∈ b, ∀ p ∈ g.nodes_from u, p ∈ b ∧ b.indexOf p < b.indexOf u

def DfsInv (g : Graph n) (visited on_stack : Fin n → Bool) (stk : List (Fin n)) : Prop :=
  GrayInv g visited on_stack stk ∧ BlackTopo g visited on_stack

/-! ### node_depth and distance_to_root_level

`node_depth` is the breadth-first ancestor expansion of
graph_utils.py: it keeps `visited_nodes` as a plain list, scans the
current `parents` level against it (`collectGrandparents` embeds the
inner `for parent in parents` loop, `none` standing for the early
`return -1`), and otherwise moves on to the concatenated grandparent
lists.  The while loop carries fuel `n + 1`, shown sufficient below
(each completed level adds at least one new distinct node). -/

def collectGrandparents (g : Graph n) (visited : List (Fin n)) :
    List (Fin n) → Option (List (Fin n))
  | [] => some []
  | p :: rest =>
    if p ∈ visited then none
    else (collectGrandparents g visited rest).map (fun gps => g.nodes_from p ++ gps)

def ndLoop (g : Graph n) : ℕ → List (Fin n) → ℤ → List (Fin n) → Option ℤ
  | _, _, depth, [] => some depth
  | 0, _, _, _ :: _ => none
  | fuel + 1, visited, depth, p :: rest =>
    match collectGrandparents g visited (p :: rest) with
    | none => some (-1)
    | some gps => ndLoop g fuel (visited ++ p :: rest) (depth + 1) gps

def node_depth (g : Graph n) (node : Fin n) : Option ℤ :=
  ndLoop g (n + 1) [node] 1 (g.nodes_from node)

/-- Modelled from the spec: `Graph.node_children` (the `Graph` class
itself is not part of the sources; §4.1 documents it as the read-only
children lookup) returns the nodes that have the given node among
their parents, in node-list order. -/
def node_children (g : Graph n) (p : Fin n) : List (Fin n) :=
  g.nodes.filter (fun u => decide (p ∈ g.nodes_from u))

/-- The inner `child_height` helper of `distance_to_root_level`: walks
down to the first child at most `graph.length` times (the Python `for _
in range(graph.length)` loop); falling off the loop yields Python
`None`. -/
def child_height (g : Graph n) : ℕ → Fin n → ℕ → Option ℕ
  | 0, _, _ => none
  | k + 1, parent_node, height =>
    match node_children g parent_node with
    | [] => some height
    | c :: _ => child_height g k c (height + 1)

def distance_to_root_level (g : Graph n) (node : Fin n) : Option ℤ :=
  if graph_has_cycle g then some (-1)
  else (child_height g g.nodes.length node 0).map (fun h => (h : ℤ))

/-- Concrete two-node graph with the cycle 0 → 1 → 0 (witness input). -/
def cycle2 : Graph 2 where
  nodes_from := fun v => if v = 0 then [1] else [0]
  nodes := [0, 1]
  nodes_nodup := by decide
  nodes_complete := by decide

/-! ## Mutable graph with lazily cached descriptive_id

Modelled from the spec: the `Graph`/`LinkedGraph` class itself is not
part of the sources (only its test is), so the lazily cached
`descriptive_id` discipline of §3 and §4.1 is modelled here: nodes
carry a `uid`, an opaque `content` and the `nodes_from` parent-uid
list; the graph stores its node list plus an `Option`-cached
fingerprint cleared by every mutator and filled on read.  The
fingerprint is the structural encoding of content plus parent lists
(injective in the structure by construction, standing for the
fingerprint string). -/

structure MNode where
  uid : ℕ
  content : String
  nodes_from : List ℕ
deriving DecidableEq, Repr

abbrev DId := List (String × List ℕ)

structure MGraph where
  mnodes : List MNode
  cached_descriptive_id : Option DId
deriving DecidableEq, Repr

/-- The structural fingerprint recomputed on a cache miss. -/
def computeId (g : MGraph) : DId := g.mnodes.map (fun x => (x.content, x.nodes_from))

/-- The lazy `descriptive_id` read: serve the cache when present,
otherwise recompute and fill it. -/
def descriptive_id (g : MGraph) : DId × MGraph :=
  match g.cached_descriptive_id with
  | some d => (d, g)
  | none => (computeId g, { g with cached_descriptive_id := some (computeId g) })

def nodes_read (g : MGraph) : List MNode × MGraph := (g.mnodes, g)

def node_children_read (g : MGraph) (u : ℕ) : List MNode × MGraph :=
  (g.mnodes.filter (fun x => decide (u ∈ x.nodes_from)), g)

def get_edges_read (g : MGraph) : List (ℕ × ℕ) × MGraph :=
  (g.mnodes.flatMap (fun x => x.nodes_from.map (fun p => (p, x.uid))), g)

def sort_nodes_read (g : MGraph) : List MNode × MGraph :=
  (g.mnodes.mergeSort (fun a b => a.uid ≤ b.uid), g)

def root_nodes_read (g : MGraph) : List MNode × MGraph :=
  (g.mnodes.filter (fun x => decide (∀ y ∈ g.mnodes, x.uid ∉ y.nodes_from)), g)

def get_node_by_uid_read (g : MGraph) (u : ℕ) : Option MNode × MGraph :=
  (g.mnodes.find? (fun x => x.uid == u), g)

/-- Longest parent chain from a uid (fuelled by the node count). -/
def chainDepth (g : MGraph) : ℕ → ℕ → ℕ
  | 0, _ => 0
  | fuel + 1, u =>
    match g.mnodes.find? (fun x => x.uid == u) with
    | none => 0
    | some x => 1 + (x.nodes_from.map (chainDepth g fuel)).foldr max 0

def depth_read (g : MGraph) : ℕ × MGraph :=
  ((g.mnodes.map (fun x => chainDepth g g.mnodes.length x.uid)).foldr max 0, g)

def graph_description_read (g : MGraph) : String × MGraph :=
  (String.intercalate ", " (g.mnodes.map (fun x => x.content)), g)

/-- The read-only operations of the graph accessor contract. -/
inductive GraphReadOp where
  | nodes : GraphReadOp
  | node_children (u : ℕ) : GraphReadOp
  | get_edges : GraphReadOp
  | sort_nodes : GraphReadOp
  | root_nodes : GraphReadOp
  | get_node_by_uid (u : ℕ) : GraphReadOp
  | depth : GraphReadOp
  | graph_description : GraphReadOp
  | read_descriptive_id : GraphReadOp

/-- The graph state after a read-only operation (only the
`descriptive_id` read itself may fill the cache). -/
def readPost : GraphReadOp → MGraph → MGraph
  | .nodes, g => (nodes_read g).2
  | .node_children u, g => (node_children_read g u).2
  | .get_edges, g => (get_edges_read g).2
  | .sort_nodes, g => (sort_nodes_read g).2
  | .root_nodes, g => (root_nodes_read g).2
  | .get_node_by_uid u, g => (get_node_by_uid_read g u).2
  | .depth, g => (depth_read g).2
  | .graph_description, g => (graph_description_read g).2
  | .read_descriptive_id, g => (descriptive_id g).2

/-- The reconnect policy of `delete_node` (§4.1): `none` drops the
severed edges, `single` preserves one hop of connectivity through one
inherited parent, `all` hands every parent of the deleted node to every
child. -/
inductive ReconnectPolicy where
  | none : ReconnectPolicy
  | single : ReconnectPolicy
  | all : ReconnectPolicy

def parents_of (g : MGraph) (u : ℕ) : List ℕ :=
  match g.mnodes.find? (fun x => x.uid == u) with
  | some x => x.nodes_from
  | none => []

/-- Append parent uids without introducing duplicate parent entries. -/
def add_parents (ps newPs : List ℕ) : List ℕ :=
  newPs.foldl (fun acc p => if p ∈ acc then acc else acc ++ [p]) ps

def reconnect_parents (pol : ReconnectPolicy) (inherited : List ℕ) : List ℕ :=
  match pol with
  | .none => []
  | .single => inherited.take 1
  | .all => inherited

/-- `delete_node` with its reconnect policy: the node is removed and
every child loses this parent, receiving the inherited parents chosen
by the policy, deduplicated. -/
def delete_node_apply (g : MGraph) (u : ℕ) (pol : ReconnectPolicy) : List MNode :=
  let inherited := reconnect_parents pol (parents_of g u)
  (g.mnodes.filter (fun x => x.uid != u)).map
    (fun x =>
      if u ∈ x.nodes_from then
        ⟨x.uid, x.content, add_parents (x.nodes_from.filter (fun q => q != u)) inherited⟩
      else x)

/-- Remove one node and prune it from every parent list (used to
compute reachability along paths avoiding that node). -/
def erase_node (g : MGraph) (u : ℕ) : MGraph :=
  ⟨(g.mnodes.filter (fun x => x.uid != u)).map
    (fun x => ⟨x.uid, x.content, x.nodes_from.filter (fun q => q != u)⟩), Option.none⟩

/-- The uids of the root nodes (nodes that are no node's parent). -/
def root_uids (g : MGraph) : List ℕ :=
  ((g.mnodes.filter (fun x => decide (∀ y ∈ g.mnodes, x.uid ∉ y.nodes_from))).map
    (fun x => x.uid))

def closure_step (g : MGraph) (s : List ℕ) : List ℕ :=
  add_parents s (s.flatMap (fun u => parents_of g u))

def closureFrom (g : MGraph) : ℕ → List ℕ → List ℕ
  | 0, s => s
  | fuel + 1, s => closureFrom g fuel (closure_step g s)

/-- Closure of a uid set under the parent relation. -/
def reach_closure (g : MGraph) (srcs : List ℕ) : List ℕ :=
  closureFrom g g.mnodes.length srcs

/-- The nodes removed by `delete_subtree u` (§4.1): `u` itself plus
every node reachable from `u` through parent chains that is not
reachable from a surviving root through another path (a path avoiding
`u`); shared descendants are spared. -/
def deleted_set (g : MGraph) (u : ℕ) : List ℕ :=
  let d := reach_closure g [u]
  let s := reach_closure (erase_node g u) ((root_uids g).filter (fun r => r != u))
  u :: d.filter (fun x => x != u && decide (x ∉ s))

/-- `delete_subtree`: remove the exclusive subtree of `u` and prune the
now-severed edges from the surviving nodes' parent lists. -/
def delete_subtree_apply (g : MGraph) (u : ℕ) : List MNode :=
  let del := deleted_set g u
  (g.mnodes.filter (fun x => decide (x.uid ∉ del))).map
    (fun x => ⟨x.uid, x.content, x.nodes_from.filter (fun q => decide (q ∉ del))⟩)

/-- `update_subtree`: discard the exclusive subtree of `u`, splice the
new subtree fragment in, and rewire `u`'s children onto the new
subtree's root at the old node's position. -/
def update_subtree_apply (g : MGraph) (u : ℕ) (sub : List MNode) (subRoot : ℕ) :
    List MNode :=
  let del := deleted_set g u
  ((g.mnodes.filter (fun x => decide (x.uid ∉ del))).map
    (fun x => ⟨x.uid, x.content,
      (x.nodes_from.map (fun q => if q = u then subRoot else q)).filter
        (fun q => decide (q ∉ del) || (q == subRoot))⟩)) ++ sub

/-- The structural and content mutations of §3/§4.1: add, delete (with
its reconnect policy), connect, disconnect, update of a node, delete
and update of a subtree, and direct node-list reassignment.  Connect
adds the parent only when absent. -/
inductive MutOp where
  | add_node (nd : MNode) : MutOp
  | delete_node (u : ℕ) (reconnect : ReconnectPolicy) : MutOp
  | connect_nodes (parent child : ℕ) : MutOp
  | disconnect_nodes (parent child : ℕ) : MutOp
  | update_node (u : ℕ) (nd : MNode) : MutOp
  | delete_subtree (u : ℕ) : MutOp
  | update_subtree (u : ℕ) (sub : List MNode) (subRoot : ℕ) : MutOp
  | set_nodes (l : List MNode) : MutOp

def mutApply : MutOp → MGraph → MGraph
  | .add_node nd, g => ⟨g.mnodes ++ [nd], none⟩
  | .delete_node u pol, g => ⟨delete_node_apply g u pol, none⟩
  | .connect_nodes parent child, g =>
    ⟨g.mnodes.map (fun x =>
      if x.uid = child ∧ parent ∉ x.nodes_from then
        ⟨x.uid, x.content, x.nodes_from ++ [parent]⟩
      else x), none⟩
  | .disconnect_nodes parent child, g =>
    ⟨g.mnodes.map (fun x =>
      if x.uid = child then ⟨x.uid, x.content, x.nodes_from.filter (fun q => q != parent)⟩
      else x), none⟩
  | .update_node u nd, g =>
    ⟨g.mnodes.map (fun x =>
      if x.uid = u then ⟨nd.uid, nd.content, x.nodes_from⟩
      else ⟨x.uid, x.content, x.nodes_from.map (fun q => if q = u then nd.uid else q)⟩), none⟩
  | .delete_subtree u, g => ⟨delete_subtree_apply g u, none⟩
  | .update_subtree u sub subRoot, g => ⟨update_subtree_apply g u sub subRoot, none⟩
  | .set_nodes l, _ => ⟨l, none⟩

/-- The four-node path graph A → B → C → D of the spec's `delete_node`
test property (uids 1–4, each node's parent list pointing one step
back). -/
def path4 : MGraph :=
  ⟨[⟨1, "A", []⟩, ⟨2, "B", [1]⟩, ⟨3, "C", [2]⟩, ⟨4, "D", [3]⟩], none⟩

/-- The cache, when present, holds the current fingerprint. -/
def CacheConsistent (g : MGraph) : Prop :=
  ∀ d, g.cached_descriptive_id = some d → d = computeId g

/-- One-node witness graph with an empty cache. -/
def mg0 : MGraph := ⟨[⟨0, "a", []⟩], none⟩

/-! ## filter_duplicates

Modelled from the spec: `filter_duplicates(archive, population)` (in
`gp_operators`, not among the sources; §4.5 documents it) removes from
the archive result set every individual whose `(descriptive_id, fitness
values)` pair already occurs in the population.  An individual is its
fingerprint id plus its fitness-value vector. -/

structure Individual where
  descr_id : ℕ
  fitness : List ℚ
deriving DecidableEq, Repr

def filter_duplicates (archive population : List Individual) : List Individual :=
  archive.filter (fun ind =>
    !population.any (fun q => q.descr_id == ind.descr_id && q.fitness == ind.fitness))

/-- The archive of the unit test: the three Pareto individuals with
weight-encoded fitness values, scaled by 10^5. -/
def test_archive : List Individual :=
  [⟨1, [-80001, 25000]⟩, ⟨2, [-70000, 10000]⟩, ⟨3, [-90000, 70000]⟩]

/-- The population of the unit test; the fourth graph shares the
second's structural fingerprint. -/
def test_population : List Individual :=
  [⟨1, [-80000, 25000]⟩, ⟨2, [-59000, 25000]⟩, ⟨3, [-90000, 70000]⟩, ⟨2, [-70000, 10000]⟩]

/-! ## replace_subtrees (crossover)

Modelled from the spec: `replace_subtrees` (in `gp_operators`, not
among the sources; §4.4 documents it) swaps the subtrees rooted at the
chosen nodes of two graphs — trees here, a chosen node being a path of
child indices — and discards the whole operation, returning both graphs
structurally unchanged, whenever a resulting graph would exceed
`max_depth` (a no-op on violation, never a truncation). -/

inductive RTree where
  | node (label : ℕ) (children : List RTree)

def RTree.depth : RTree → ℕ
  | .node _ cs => 1 + (cs.attach.map (fun c => RTree.depth c.1)).foldr max 0
decreasing_by
  simp_wf
  have h := List.sizeOf_lt_of_mem c.2
  omega

def subtreeAt : List ℕ → RTree → Option RTree
  | [], t => some t
  | i :: rest, .node _ cs =>
    match cs.get? i with
    | none => none
    | some c => subtreeAt rest c

def replaceAt : List ℕ → RTree → RTree → RTree
  | [], _, newT => newT
  | i :: rest, .node l cs, newT =>
    .node l (cs.enum.map (fun jc => if jc.1 = i then replaceAt rest jc.2 newT else jc.2))

def replace_subtrees (graph_1 graph_2 : RTree) (path_1 path_2 : List ℕ)
    (max_depth : ℕ) : RTree × RTree :=
  match subtreeAt path_1 graph_1, subtreeAt path_2 graph_2 with
  | some t1, some t2 =>
    let g1' := replaceAt path_1 graph_1 t2
    let g2' := replaceAt path_2 graph_2 t1
    if g1'.depth ≤ max_depth ∧ g2'.depth ≤ max_depth then (g1', g2') else (graph_1, graph_2)
  | _, _ => (graph_1, graph_2)

/-- Witness trees: a three-node chain and a two-node chain. -/
def chain2 : RTree := .node 10 [.node 11 []]

def chain3 : RTree := .node 0 [.node 1 [.node 2 []]]

/-! ## Optimisation-loop determinism

Modelled from the spec: the generational loop (§4.7, not among the
sources; only its test is) draws every random choice from a global
linear congruential generator whose state is part of the ambient world;
`set_random_seed` overwrites that global state with the seed, exactly
as the determinism test does before each launch.  Individuals are
5-label genomes (labels X/Y as bits), population size 3, three
generations of select-best plus two rng-driven mutations; the history
is the list of generations, and every operation also returns the global
generator state it leaves behind. -/

def lcg_next (s : ℕ) : ℕ := (s * 1103515245 + 12345) % 2147483648

abbrev Genome := List ℕ

def genome_fitness (target genome : Genome) : ℕ :=
  ((List.zip target genome).filter (fun pr => pr.1 != pr.2)).length

def random_genome (rng : ℕ) : ℕ × Genome :=
  let r1 := lcg_next rng
  let r2 := lcg_next r1
  let r3 := lcg_next r2
  let r4 := lcg_next r3
  let r5 := lcg_next r4
  (r5, [r1 % 2, r2 % 2, r3 % 2, r4 % 2, r5 % 2])

def mutate_genome (rng : ℕ) (geno : Genome) : ℕ × Genome :=
  let r1 := lcg_next rng
  let pos := r1 % (max geno.length 1)
  let r2 := lcg_next r1
  (r2, geno.set pos (r2 % 2))

def evolve_population (target : Genome) (rng : ℕ) (pop : List Genome) : ℕ × List Genome :=
  let best := pop.foldl
    (fun acc geno => if genome_fitness target geno < genome_fitness target acc then geno else acc)
    (pop.headD [])
  let m1 := mutate_genome rng best
  let m2 := mutate_genome m1.1 best
  (m2.1, [best, m1.2, m2.2])

def run_generations (target : Genome) : ℕ → ℕ → List Genome → List (List Genome) × ℕ
  | 0, rng, _ => ([], rng)
  | k + 1, rng, pop =>
    let st := evolve_population target rng pop
    let rest := run_generations target k st.1 st.2
    (st.2 :: rest.1, rest.2)

/-- `set_random_seed`: overwrite the ambient global generator state
with the seed (the pre-existing state is discarded). -/
def set_random_seed (seed rng_state : ℕ) : ℕ := seed

/-- One launch of the loop as in the determinism test: reset the global
generator from the seed, build the initial population, run three
generations; returns the history and the global generator state the
launch leaves behind. -/
def launch_with_seed (seed : ℕ) (rng_state : ℕ) : List (List Genome) × ℕ :=
  let r0 := set_random_seed seed rng_state
  let g1 := random_genome r0
  let g2 := random_genome g1.1
  let g3 := random_genome g2.1
  run_generations [0, 1, 1, 0, 1] 3 g3.1 [g1.2, g2.2, g3.2]

def history_equals (h1 h2 : List (List Genome)) : Bool :=
  (List.range h1.length).all (fun i => h1.getD i [] == h2.getD i [])

/-- The validation condition rejected by `AdaptiveGraphDepth.init`:
`start_depth` absent or non-positive, `max_depth` absent or below
`start_depth`, or `max_stagnation_gens` absent or non-positive. -/
def InvalidBounds (start_depth max_depth max_stagnation_gens : Option ℤ) : Prop :=
  start_depth = none ∨ (∃ v, start_depth = some v ∧ v ≤ 0) ∨
  max_depth = none ∨ (∃ v w, start_depth = some v ∧ max_depth = some w ∧ w < v) ∨
  max_stagnation_gens = none ∨ (∃ v, max_stagnation_gens = some v ∧ v ≤ 0)

end Golem

namespace Golem

variable {n : ℕ}

/-! ## Theorems: depth-first search helper lemmas -/

theorem scanParents_some_iff (ps : List (Fin n)) (vis os : Fin n → Bool)
    (stk s' : List (Fin n)) :
    scanParents ps vis os stk = some s' ↔
      ((∀ p ∈ ps, vis p = true → os p = false) ∧ s' = pushList vis ps ++ stk) := by
  induction ps generalizing stk with
  | nil =>
    simp only [scanParents, pushList, List.filter_nil, List.reverse_nil, List.nil_append,
      Option.some.injEq, List.not_mem_nil, false_implies, implies_true, true_and]
    exact eq_comm
  | cons p rest ih =>
    cases hv : vis p with
    | false =>
      simp only [scanParents]
      rw [if_pos hv, ih]
      have hfil : pushList vis (p :: rest) ++ stk = pushList vis rest ++ (p :: stk) := by
        simp [pushList, List.filter_cons, hv]
      rw [hfil]
      constructor
      · rintro ⟨h1, h2⟩
        refine ⟨?_, h2⟩
        rintro q hq
        rcases List.mem_cons.1 hq with rfl | hq'
        · intro hvq; rw [hv] at hvq; cases hvq
        · exact h1 q hq'
      · rintro ⟨h1, h2⟩
        exact ⟨fun q hq => h1 q (List.mem_cons_of_mem p hq), h2⟩
    | true =>
      cases ho : os p with
      | true =>
        simp only [scanParents]
        rw [if_neg (by simp [hv]), if_pos ho]
        constructor
        · intro h; cases h
        · rintro ⟨h1, -⟩
          have := h1 p (List.mem_cons_self p rest) hv
          rw [ho] at this; cases this
      | false =>
        simp only [scanParents]
        rw [if_neg (by simp [hv]), if_neg (by simp [ho]), ih]
        have hfil : pushList vis (p :: rest) = pushList vis rest := by
          simp [pushList, List.filter_cons, hv]
        rw [hfil]
        constructor
        · rintro ⟨h1, h2⟩
          refine ⟨?_, h2⟩
          rintro q hq
          rcases List.mem_cons.1 hq with rfl | hq'
          · intro _; exact ho
          · exact h1 q hq'
        · rintro ⟨h1, h2⟩
          exact ⟨fun q hq => h1 q (List.mem_cons_of_mem p hq), h2⟩

theorem scanParents_none_iff (ps : List (Fin n)) (vis os : Fin n → Bool)
    (stk : List (Fin n)) :
    scanParents ps vis os stk = none ↔ ∃ p ∈ ps, vis p = true ∧ os p = true := by
  induction ps generalizing stk with
  | nil => simp [scanParents]
  | cons p rest ih =>
    cases hv : vis p with
    | false =>
      simp only [scanParents]
      rw [if_pos hv, ih]
      constructor
      · rintro ⟨q, hq, hq2⟩; exact ⟨q, List.mem_cons_of_mem p hq, hq2⟩
      · rintro ⟨q, hq, hq2⟩
        rcases List.mem_cons.1 hq with rfl | hq'
        · rw [hv] at hq2; cases hq2.1
        · exact ⟨q, hq', hq2⟩
    | true =>
      cases ho : os p with
      | true =>
        simp only [scanParents]
        rw [if_neg (by simp [hv]), if_pos ho]
        exact ⟨fun _ => ⟨p, List.mem_cons_self p rest, hv, ho⟩, fun _ => rfl⟩
      | false =>
        simp only [scanParents]
        rw [if_neg (by simp [hv]), if_neg (by simp [ho]), ih]
        constructor
        · rintro ⟨q, hq, hq2⟩; exact ⟨q, List.mem_cons_of_mem p hq, hq2⟩
        · rintro ⟨q, hq, hq2⟩
          rcases List.mem_cons.1 hq with rfl | hq'
          · rw [ho] at hq2; cases hq2.2
          · exact ⟨q, hq', hq2⟩

theorem length_nodes_from_le_maxDeg (g : Graph n) (v : Fin n) :
    (g.nodes_from v).length ≤ maxDeg g := by
  unfold maxDeg
  exact Finset.le_sup (f := fun v : Fin n => (g.nodes_from v).length) (Finset.mem_univ v)

theorem unvisCount_update (vis : Fin n → Bool) (cur : Fin n) (h : vis cur = false) :
    unvisCount (Function.update vis cur true) + 1 = unvisCount vis := by
  unfold unvisCount
  have hset : (Finset.univ.filter (fun v => Function.update vis cur true v = false)) =
      (Finset.univ.filter (fun v => vis v = false)).erase cur := by
    ext v
    by_cases hv : v = cur
    · subst hv; simp [Function.update_same]
    · simp [Function.update_noteq hv, hv]
  rw [hset, Finset.card_erase_of_mem (by simp [h])]
  have hpos : 0 < (Finset.univ.filter (fun v => vis v = false)).card :=
    Finset.card_pos.2 ⟨cur, by simp [h]⟩
  omega

theorem unvisCount_le (vis : Fin n → Bool) : unvisCount vis ≤ n := by
  unfold unvisCount
  calc (Finset.univ.filter (fun v => vis v = false)).card
      ≤ Finset.univ.card := Finset.card_filter_le _ _
    _ = n := Finset.card_univ.trans (Fintype.card_fin n)

theorem pre_decomp {cur x : Fin n} {rest pre post : List (Fin n)}
    (hdec : cur :: rest = pre ++ x :: post) (hne : x ≠ cur) :
    ∃ pre', pre = cur :: pre' ∧ rest = pre' ++ x :: post := by
  cases pre with
  | nil =>
    simp only [List.nil_append, List.cons.injEq] at hdec
    exact absurd hdec.1.symm hne
  | cons a pre' =>
    simp only [List.cons_append, List.cons.injEq] at hdec
    exact ⟨pre', by rw [hdec.1], hdec.2⟩

theorem grayInv_empty_no_gray {g : Graph n} {vis os : Fin n → Bool}
    (h : GrayInv g vis os []) : ∀ x, os x = false := by
  intro x
  by_contra hx
  have hx' : os x = true := by revert hx; cases os x <;> simp
  obtain ⟨_, _, pre, post, hdec, _⟩ := h x hx'
  cases pre <;> simp at hdec

/-! ## Theorems: RewardAgent -/

theorem sum_map_div (l : List ℚ) (t : ℚ) :
    (l.map (fun d => d / t)).sum = l.sum / t := by
  induction l with
  | nil => simp
  | cons a l ih => simp [ih, add_div]

theorem abs_map_of_nonneg (l : List ℚ) (h : ∀ d ∈ l, 0 ≤ d) :
    l.map (fun d => |d|) = l := by
  induction l with
  | nil => simp
  | cons a l ih =>
    simp only [List.map_cons]
    rw [abs_of_nonneg (h a (by simp)), ih (fun d hd => h d (by simp [hd]))]

/-- Amended C2: when every per-arm decayed accumulated reward is
non-negative and at least one of them is non-zero, the fitness-rank-rate
values sum to exactly 1 and every entry is non-negative. -/
theorem get_fitness_rank_rate_distribution (decaying_factor : ℚ) (rewards : List ℚ)
    (arms : List ℤ)
    (hpos : ∀ d ∈ (get_decay_values_for_arms decaying_factor rewards arms).2, 0 ≤ d)
    (hnz : ∃ d ∈ (get_decay_values_for_arms decaying_factor rewards arms).2, d ≠ 0) :
    (get_fitness_rank_rate (get_decay_values_for_arms decaying_factor rewards arms).2).sum = 1 ∧
    ∀ x ∈ get_fitness_rank_rate (get_decay_values_for_arms decaying_factor rewards arms).2,
      0 ≤ x := by
  set dv := (get_decay_values_for_arms decaying_factor rewards arms).2 with hdv
  obtain ⟨d0, hd0mem, hd0ne⟩ := hnz
  have habs : dv.map (fun d => |d|) = dv := abs_map_of_nonneg dv hpos
  have htotal : (dv.map (fun d => |d|)).sum = dv.sum := by rw [habs]
  have hd0pos : 0 < d0 := lt_of_le_of_ne (hpos d0 hd0mem) (Ne.symm hd0ne)
  have hsum_pos : 0 < dv.sum := by
    have hle : d0 ≤ dv.sum := List.single_le_sum hpos d0 hd0mem
    exact lt_of_lt_of_le hd0pos hle
  have hcond : (dv.map (fun d => |d|)).sum ≠ 0 := by
    rw [htotal]; exact ne_of_gt hsum_pos
  unfold get_fitness_rank_rate
  simp only [hcond, if_pos, ne_eq, not_false_eq_true, if_true]
  constructor
  · rw [sum_map_div, htotal, div_self (ne_of_gt hsum_pos)]
  · intro x hx
    simp only [List.mem_map] at hx
    obtain ⟨d, hdmem, rfl⟩ := hx
    exact div_nonneg (hpos d hdmem) (by rw [htotal]; exact le_of_lt hsum_pos)

/-- Witness for the amended C2 at a concrete input. -/
theorem get_fitness_rank_rate_distribution_witness :
    (get_fitness_rank_rate (get_decay_values_for_arms 1 [3, 1] [0, 1]).2).sum = 1 ∧
    ∀ x ∈ get_fitness_rank_rate (get_decay_values_for_arms 1 [3, 1] [0, 1]).2, 0 ≤ x :=
  get_fitness_rank_rate_distribution 1 [3, 1] [0, 1]
    (by norm_num [get_decay_values_for_arms, List.dedup])
    (by refine ⟨3, ?_, by norm_num⟩; norm_num [get_decay_values_for_arms, List.dedup])

/-- Counterexample to C2 as stated: for the reward batch `[1, -1]` over
arms `[0, 1]` (decayed sums `[1, -1]`, not all zero), the
fitness-rank-rate values are `[1/2, -1/2]`: they sum to 0, not 1, and
contain a negative entry. -/
theorem get_fitness_rank_rate_not_distribution :
    (∃ d ∈ (get_decay_values_for_arms 1 [1, -1] [0, 1]).2, d ≠ 0) ∧
    ¬((get_fitness_rank_rate (get_decay_values_for_arms 1 [1, -1] [0, 1]).2).sum = 1 ∧
      ∀ x ∈ get_fitness_rank_rate (get_decay_values_for_arms 1 [1, -1] [0, 1]).2, 0 ≤ x) := by
  constructor
  · refine ⟨1, ?_, by norm_num⟩
    norm_num [get_decay_values_for_arms, List.dedup]
  · intro h
    have h1 := h.1
    norm_num [get_fitness_rank_rate, get_decay_values_for_arms, List.dedup] at h1

/-- Amended C3: whenever every decayed value is zero, the
fitness-rank-rate is the literal one-element list `[0]`, regardless of
how many arms the batch contains. -/
theorem get_fitness_rank_rate_all_zero (decaying_factor : ℚ) (rewards : List ℚ)
    (arms : List ℤ)
    (h : ∀ d ∈ (get_decay_values_for_arms decaying_factor rewards arms).2, d = 0) :
    get_fitness_rank_rate (get_decay_values_for_arms decaying_factor rewards arms).2 = [0] := by
  set dv := (get_decay_values_for_arms decaying_factor rewards arms).2 with hdv
  have habs : dv.map (fun d => |d|) = dv := by
    apply abs_map_of_nonneg
    intro d hd; rw [h d hd]
  have hz : (dv.map (fun d => |d|)).sum = 0 := by
    rw [habs]
    exact List.sum_eq_zero h
  unfold get_fitness_rank_rate
  simp [hz]

/-- Witness for the amended C3 at a concrete input. -/
theorem get_fitness_rank_rate_all_zero_witness :
    get_fitness_rank_rate (get_decay_values_for_arms 1 [0, 0] [0, 1]).2 = [0] :=
  get_fitness_rank_rate_all_zero 1 [0, 0] [0, 1]
    (by norm_num [get_decay_values_for_arms, List.dedup])

/-- Counterexample to C3 as stated: a batch over the two distinct arms
`0` and `1` with all rewards zero yields two all-zero decayed values,
but the fitness-rank-rate result has length 1, not one entry per arm. -/
theorem get_fitness_rank_rate_all_zero_length :
    (get_decay_values_for_arms 1 [0, 0] [0, 1]).1.length = 2 ∧
    (∀ d ∈ (get_decay_values_for_arms 1 [0, 0] [0, 1]).2, d = 0) ∧
    (get_fitness_rank_rate (get_decay_values_for_arms 1 [0, 0] [0, 1]).2).length ≠ 2 := by
  refine ⟨?_, ?_, ?_⟩
  · norm_num [get_decay_values_for_arms, List.dedup]
  · norm_num [get_decay_values_for_arms, List.dedup]
  · norm_num [get_fitness_rank_rate, get_decay_values_for_arms, List.dedup]

/-! ## Theorems: AdaptiveGraphDepth -/

theorem AdaptiveGraphDepth.next_fields (s : AdaptiveGraphDepth) (stag : ℤ) :
    (s.next stag).2.start_depth = s.start_depth ∧
    (s.next stag).2.max_depth = s.max_depth ∧
    (s.next stag).2.max_stagnation_gens = s.max_stagnation_gens ∧
    (s.next stag).2.adaptive = s.adaptive := by
  unfold AdaptiveGraphDepth.next
  split_ifs <;> simp

theorem AdaptiveGraphDepth.next_valid (s : AdaptiveGraphDepth) (stag : ℤ)
    (h : s.Valid) : (s.next stag).2.Valid := by
  obtain ⟨h1, h2⟩ := h
  unfold AdaptiveGraphDepth.next AdaptiveGraphDepth.Valid at *
  split_ifs <;> simp <;> omega

theorem AdaptiveGraphDepth.next_fst_bounds (s : AdaptiveGraphDepth) (stag : ℤ)
    (h : s.Valid) :
    s.start_depth ≤ (s.next stag).1 ∧ (s.next stag).1 ≤ s.max_depth := by
  obtain ⟨h1, h2⟩ := h
  unfold AdaptiveGraphDepth.next
  split_ifs <;> simp <;> omega

theorem AdaptiveGraphDepth.run_bounds (l : List ℤ) (s : AdaptiveGraphDepth)
    (h : s.Valid) :
    ∀ x ∈ s.run l, s.start_depth ≤ x ∧ x ≤ s.max_depth := by
  induction l generalizing s with
  | nil => intro x hx; simp [AdaptiveGraphDepth.run] at hx
  | cons stag rest ih =>
    intro x hx
    simp only [AdaptiveGraphDepth.run, List.mem_cons] at hx
    rcases hx with rfl | hx
    · exact s.next_fst_bounds stag h
    · have hv := s.next_valid stag h
      have hf := s.next_fields stag
      have := ih (s.next stag).2 hv x hx
      rw [hf.1, hf.2.1] at this
      exact this

/-- C4: `next` reports `max_depth` whenever `adaptive` is false;
otherwise the depth is incremented by exactly 1 when the stagnation
counter has reached `max_stagnation_gens` (subject to the `max_depth`
cap) and held unchanged otherwise, and across any sequence of `next`
calls from a valid state every reported value stays within
`[start_depth, max_depth]`. -/
theorem adaptive_graph_depth_next_spec (s : AdaptiveGraphDepth) (stag : ℤ) :
    (s.adaptive = false → (s.next stag).1 = s.max_depth) ∧
    (s.adaptive = true → s.current_depth < s.max_depth →
      ((s.max_stagnation_gens ≤ stag → (s.next stag).1 = s.current_depth + 1) ∧
       (stag < s.max_stagnation_gens → (s.next stag).1 = s.current_depth))) ∧
    (s.adaptive = true → s.max_depth ≤ s.current_depth → (s.next stag).1 = s.current_depth) ∧
    (∀ l, s.Valid → ∀ x ∈ s.run l, s.start_depth ≤ x ∧ x ≤ s.max_depth) := by
  refine ⟨?_, ?_, ?_, ?_⟩
  · intro ha
    unfold AdaptiveGraphDepth.next
    simp [ha]
  · intro ha hlt
    constructor <;> intro hstag <;> unfold AdaptiveGraphDepth.next <;>
      split_ifs <;> simp_all <;> omega
  · intro ha hle
    unfold AdaptiveGraphDepth.next
    split_ifs <;> simp_all <;> omega
  · intro l hv
    exact AdaptiveGraphDepth.run_bounds l s hv

/-- Witness for C4 at a concrete state: with bounds `[1, 3]`,
stagnation threshold 2 and observed stagnation 2, the depth is
incremented to 2, and a run of four stagnating generations stays within
the bounds. -/
theorem adaptive_graph_depth_next_spec_witness :
    ((⟨1, 3, 1, 2, true⟩ : AdaptiveGraphDepth).next 2).1 = 1 + 1 ∧
    (∀ x ∈ (⟨1, 3, 1, 2, true⟩ : AdaptiveGraphDepth).run [2, 2, 2, 2],
      (1 : ℤ) ≤ x ∧ x ≤ 3) := by
  constructor
  · exact ((adaptive_graph_depth_next_spec ⟨1, 3, 1, 2, true⟩ 2).2.1 rfl
      (by decide)).1 (by decide)
  · exact (adaptive_graph_depth_next_spec ⟨1, 3, 1, 2, true⟩ 2).2.2.2 [2, 2, 2, 2]
      ⟨by decide, by decide⟩

/-- C5: construction fails with an error exactly when the bounds are
invalid (`start_depth` absent or ≤ 0, `max_depth` absent or below
`start_depth`, `max_stagnation_gens` absent or ≤ 0); with valid bounds
it succeeds and produces the expected valid state. -/
theorem adaptive_graph_depth_init_spec (sd md ms : Option ℤ) (b : Bool) :
    ((∃ e, AdaptiveGraphDepth.init sd md ms b = Except.error e) ↔ InvalidBounds sd md ms) ∧
    (∀ s, AdaptiveGraphDepth.init sd md ms b = Except.ok s →
      sd = some s.start_depth ∧ md = some s.max_depth ∧
      ms = some s.max_stagnation_gens ∧ s.current_depth = s.start_depth ∧
      s.adaptive = b ∧ s.Valid) := by
  constructor
  · rcases sd with _ | v
    · simp [AdaptiveGraphDepth.init, InvalidBounds]
    · rcases md with _ | w
      · simp only [AdaptiveGraphDepth.init, InvalidBounds]
        split_ifs <;> simp_all
      · rcases ms with _ | u
        · simp only [AdaptiveGraphDepth.init, InvalidBounds]
          split_ifs <;> simp_all
        · simp only [AdaptiveGraphDepth.init, InvalidBounds]
          split_ifs <;> simp_all <;> omega
  · intro s hs
    rcases sd with _ | v <;> rcases md with _ | w <;> rcases ms with _ | u <;>
      simp only [AdaptiveGraphDepth.init] at hs <;>
      (try split_ifs at hs) <;>
      (try cases hs) <;> simp_all [AdaptiveGraphDepth.Valid] <;> omega

/-- Witness for C5: valid bounds `(1, 3, 2)` construct successfully with
`current_depth = start_depth = 1`, and the state is valid. -/
theorem adaptive_graph_depth_init_spec_witness :
    ∃ s, AdaptiveGraphDepth.init (some 1) (some 3) (some 2) true = Except.ok s ∧
      s.current_depth = s.start_depth ∧ s.Valid := by
  refine ⟨⟨1, 3, 1, 2, true⟩, rfl, ?_⟩
  have := (adaptive_graph_depth_init_spec (some 1) (some 3) (some 2) true).2
    ⟨1, 3, 1, 2, true⟩ rfl
  exact ⟨this.2.2.2.1, this.2.2.2.2.2⟩

end Golem

namespace Golem

variable {n : ℕ}

/-! ## Theorems: correctness of graph_has_cycle

Step lemmas: each iteration of the while loop either reports a cycle
(which is then a real cycle, by the gray-stack invariant) or preserves
the invariant while decreasing the loop measure. -/

theorem dfs_mark_found {g : Graph n} {vis os : Fin n → Bool} {cur : Fin n}
    {rest : List (Fin n)}
    (hInv : DfsInv g vis os (cur :: rest))
    (hscan : scanParents (g.nodes_from cur) (Function.update vis cur true)
      (Function.update os cur true) (cur :: rest) = none) :
    HasCycle g := by
  obtain ⟨p, hpmem, hpv, hpo⟩ := (scanParents_none_iff _ _ _ _).1 hscan
  by_cases hpc : p = cur
  · subst hpc
    exact ⟨p, Relation.TransGen.single hpmem⟩
  · rw [Function.update_noteq hpc] at hpv hpo
    obtain ⟨_, _, pre, post, hdec, hnotin, hreach, -⟩ := hInv.1 p hpo
    obtain ⟨pre', hpre, -⟩ := pre_decomp hdec hpc
    have hcurpre : cur ∈ pre := by rw [hpre]; exact List.mem_cons_self _ _
    exact ⟨p, Relation.TransGen.tail' (hreach cur hcurpre) hpmem⟩

theorem dfs_pop_found {g : Graph n} {vis os : Fin n → Bool} {cur : Fin n}
    {rest : List (Fin n)}
    (hInv : DfsInv g vis os (cur :: rest))
    (hscan : scanParents (g.nodes_from cur) vis (Function.update os cur false) rest = none) :
    HasCycle g := by
  obtain ⟨p, hpmem, hpv, hpo⟩ := (scanParents_none_iff _ _ _ _).1 hscan
  have hpc : p ≠ cur := by
    intro h; subst h; rw [Function.update_same] at hpo; cases hpo
  rw [Function.update_noteq hpc] at hpo
  obtain ⟨_, _, pre, post, hdec, hnotin, hreach, -⟩ := hInv.1 p hpo
  obtain ⟨pre', hpre, -⟩ := pre_decomp hdec hpc
  have hcurpre : cur ∈ pre := by rw [hpre]; exact List.mem_cons_self _ _
  exact ⟨p, Relation.TransGen.tail' (hreach cur hcurpre) hpmem⟩

theorem dfs_mark_some {g : Graph n} {vis os : Fin n → Bool} {cur : Fin n}
    {rest s' : List (Fin n)}
    (hInv : DfsInv g vis os (cur :: rest)) (hcur : vis cur = false)
    (hscan : scanParents (g.nodes_from cur) (Function.update vis cur true)
      (Function.update os cur true) (cur :: rest) = some s') :
    DfsInv g (Function.update vis cur true) (Function.update os cur true) s' ∧
      s'.length ≤ rest.length + 1 + maxDeg g ∧ ∀ x ∈ cur :: rest, x ∈ s' := by
  obtain ⟨hsafe, hs'⟩ := (scanParents_some_iff _ _ _ _ _).1 hscan
  set vis' := Function.update vis cur true with hvis'
  set os' := Function.update os cur true with hos'
  set P := pushList vis' (g.nodes_from cur) with hP
  have hPmem : ∀ y ∈ P, y ∈ g.nodes_from cur ∧ vis' y = false := by
    intro y hy
    rw [hP, pushList, List.mem_reverse, List.mem_filter] at hy
    exact ⟨hy.1, by simpa using hy.2⟩
  have hPsub : ∀ p, p ∈ g.nodes_from cur → vis' p = false → p ∈ P := by
    intro p hp hv
    rw [hP, pushList, List.mem_reverse, List.mem_filter]
    exact ⟨hp, by simp [hv]⟩
  have hcurP : cur ∉ P := fun h => by
    have h2 := (hPmem cur h).2
    rw [hvis', Function.update_same] at h2; cases h2
  have hself : cur ∉ g.nodes_from cur := by
    intro h
    have h2 := hsafe cur h (by rw [hvis', Function.update_same])
    rw [hos', Function.update_same] at h2; cases h2
  refine ⟨⟨?_, ?_⟩, ?_, ?_⟩
  · -- GrayInv
    intro x hx
    by_cases hxc : x = cur
    · subst hxc
      refine ⟨by rw [hvis', Function.update_same], hself, P, rest, hs', hcurP, ?_, ?_⟩
      · intro y hy
        exact Relation.ReflTransGen.single ((hPmem y hy).1)
      · intro p hp
        cases hvp : vis' p with
        | true => exact Or.inl rfl
        | false => exact Or.inr (hPsub p hp hvp)
    · rw [hos', Function.update_noteq hxc] at hx
      obtain ⟨hvx, hsx, pre, post, hdec, hnotin, hreach, hpar⟩ := hInv.1 x hx
      obtain ⟨pre', hpre, hrest⟩ := pre_decomp hdec hxc
      have hcurpre : cur ∈ pre := by rw [hpre]; exact List.mem_cons_self _ _
      refine ⟨by rw [hvis', Function.update_noteq hxc]; exact hvx, hsx,
        P ++ pre, post, ?_, ?_, ?_, ?_⟩
      · rw [hs', hdec, List.append_assoc]
      · intro hmem2
        rcases List.mem_append.1 hmem2 with hmem2 | hmem2
        · have h2 := (hPmem x hmem2).2
          rw [hvis', Function.update_noteq hxc, hvx] at h2; cases h2
        · exact hnotin hmem2
      · intro y hy
        rcases List.mem_append.1 hy with hy | hy
        · exact Relation.ReflTransGen.tail (hreach cur hcurpre) ((hPmem y hy).1)
        · exact hreach y hy
      · intro p hp
        rcases hpar p hp with hvp | hpp
        · left
          by_cases hpc : p = cur
          · subst hpc; rw [hvis', Function.update_same]
          · rw [hvis', Function.update_noteq hpc]; exact hvp
        · exact Or.inr (List.mem_append_right _ hpp)
  · -- BlackTopo
    obtain ⟨b, hnd, hmem, htopo⟩ := hInv.2
    refine ⟨b, hnd, ?_, htopo⟩
    intro x
    by_cases hxc : x = cur
    · subst hxc
      rw [hmem]
      simp [hvis', hos', Function.update_same, hcur]
    · rw [hmem, hvis', hos', Function.update_noteq hxc, Function.update_noteq hxc]
  · -- length bound
    rw [hs']
    have hPlen : P.length ≤ maxDeg g := by
      rw [hP, pushList, List.length_reverse]
      calc (List.filter (fun p => !vis' p) (g.nodes_from cur)).length
          ≤ (g.nodes_from cur).length := List.length_filter_le _ _
        _ ≤ maxDeg g := length_nodes_from_le_maxDeg g cur
    rw [List.length_append, List.length_cons]
    omega
  · intro x hx
    rw [hs']
    exact List.mem_append_right _ hx

theorem dfs_pop_some {g : Graph n} {vis os : Fin n → Bool} {cur : Fin n}
    {rest s' : List (Fin n)}
    (hInv : DfsInv g vis os (cur :: rest)) (hcur : vis cur = true)
    (hscan : scanParents (g.nodes_from cur) vis (Function.update os cur false) rest = some s') :
    DfsInv g vis (Function.update os cur false) s' ∧ s' = rest := by
  obtain ⟨hsafe, hs'⟩ := (scanParents_some_iff _ _ _ _ _).1 hscan
  have hallvis : ∀ p ∈ g.nodes_from cur, vis p = true := by
    cases hoc : os cur with
    | true =>
      obtain ⟨-, -, pre, post, hdec, hnotin, -, hpar⟩ := hInv.1 cur hoc
      have hpre : pre = [] := by
        cases pre with
        | nil => rfl
        | cons a t =>
          exfalso
          rw [List.cons_append, List.cons.injEq] at hdec
          apply hnotin
          rw [hdec.1]
          exact List.mem_cons_self _ _
      subst hpre
      intro p hp
      rcases hpar p hp with h | h
      · exact h
      · cases h
    | false =>
      obtain ⟨b, hnd, hmem, htopo⟩ := hInv.2
      have hcb : cur ∈ b := (hmem cur).2 ⟨hcur, hoc⟩
      intro p hp
      exact ((hmem p).1 (htopo cur hcb p hp).1).1
  have hPnil : pushList vis (g.nodes_from cur) = [] := by
    rw [pushList, List.reverse_eq_nil_iff]
    rw [List.filter_eq_nil]
    intro p hp
    simp [hallvis p hp]
  have hs'' : s' = rest := by rw [hs', hPnil, List.nil_append]
  subst hs''
  refine ⟨⟨?_, ?_⟩, rfl⟩
  · -- GrayInv on the popped stack
    intro x hx
    have hxc : x ≠ cur := by
      intro h; subst h; rw [Function.update_same] at hx; cases hx
    rw [Function.update_noteq hxc] at hx
    obtain ⟨hvx, hsx, pre, post, hdec, hnotin, hreach, hpar⟩ := hInv.1 x hx
    obtain ⟨pre', hpre, hrest⟩ := pre_decomp hdec hxc
    refine ⟨hvx, hsx, pre', post, hrest, ?_, ?_, ?_⟩
    · intro hmem2
      exact hnotin (by rw [hpre]; exact List.mem_cons_of_mem _ hmem2)
    · intro y hy
      exact hreach y (by rw [hpre]; exact List.mem_cons_of_mem _ hy)
    · intro p hp
      rcases hpar p hp with h | h
      · exact Or.inl h
      · rw [hpre] at h
        rcases List.mem_cons.1 h with rfl | h
        · exact Or.inl hcur
        · exact Or.inr h
  · -- BlackTopo after finishing (or re-popping) cur
    cases hoc : os cur with
    | false =>
      obtain ⟨b, hnd, hmem, htopo⟩ := hInv.2
      refine ⟨b, hnd, ?_, htopo⟩
      intro x
      by_cases hxc : x = cur
      · subst hxc; rw [hmem, Function.update_same, hoc]
      · rw [hmem, Function.update_noteq hxc]
    | true =>
      obtain ⟨b, hnd, hmem, htopo⟩ := hInv.2
      have hcurb : cur ∉ b := by
        intro h
        have h2 := ((hmem cur).1 h).2
        rw [hoc] at h2; cases h2
      have hself : cur ∉ g.nodes_from cur := (hInv.1 cur hoc).2.1
      refine ⟨b ++ [cur], ?_, ?_, ?_⟩
      · simp [List.nodup_append, hnd, hcurb]
      · intro x
        by_cases hxc : x = cur
        · subst hxc
          simp [Function.update_same, hcur]
        · rw [List.mem_append]
          simp only [List.mem_singleton, hxc, or_false]
          rw [hmem, Function.update_noteq hxc]
      · intro u hu p hp
        rcases List.mem_append.1 hu with hub | huc
        · have h2 := htopo u hub p hp
          refine ⟨List.mem_append_left _ h2.1, ?_⟩
          rw [List.indexOf_append_of_mem h2.1, List.indexOf_append_of_mem hub]
          exact h2.2
        · have huc' : u = cur := by simpa using huc
          rw [huc'] at hp ⊢
          have hvp := hallvis p hp
          have hosp := hsafe p hp hvp
          have hpc : p ≠ cur := fun h => hself (h ▸ hp)
          rw [Function.update_noteq hpc] at hosp
          have hpb : p ∈ b := (hmem p).2 ⟨hvp, hosp⟩
          refine ⟨List.mem_append_left _ hpb, ?_⟩
          rw [List.indexOf_append_of_mem hpb, List.indexOf_append_of_not_mem hcurb]
          have hlt := List.indexOf_lt_length.2 hpb
          simp only [List.indexOf_cons_self]
          omega

end Golem

namespace Golem

variable {n : ℕ}

theorem loopMeasure_mark_lt {g : Graph n} {vis : Fin n → Bool} {cur : Fin n}
    {rest s' : List (Fin n)} (hcur : vis cur = false)
    (hlen : s'.length ≤ rest.length + 1 + maxDeg g) :
    loopMeasure g (Function.update vis cur true) s' < loopMeasure g vis (cur :: rest) := by
  unfold loopMeasure
  have hu := unvisCount_update vis cur hcur
  set u' := unvisCount (Function.update vis cur true) with hu'
  rw [← hu]
  have hexp : (u' + 1) * (maxDeg g + 2) = u' * (maxDeg g + 2) + maxDeg g + 2 := by ring
  rw [hexp, List.length_cons]
  generalize u' * (maxDeg g + 2) = A
  omega

theorem loopMeasure_pop_lt (g : Graph n) (vis : Fin n → Bool) (cur : Fin n)
    (rest : List (Fin n)) :
    loopMeasure g vis rest < loopMeasure g vis (cur :: rest) := by
  unfold loopMeasure
  rw [List.length_cons]
  generalize unvisCount vis * (maxDeg g + 2) = A
  omega

theorem visited_update_mono (vis : Fin n → Bool) (cur x : Fin n) (hx : vis x = true) :
    Function.update vis cur true x = true := by
  by_cases hxc : x = cur
  · subst hxc; rw [Function.update_same]
  · rw [Function.update_noteq hxc]; exact hx

theorem dfsLoop_spec (g : Graph n) :
    ∀ (fuel : ℕ) (vis os : Fin n → Bool) (stk : List (Fin n)),
    DfsInv g vis os stk → loopMeasure g vis stk < fuel →
    (dfsLoop g fuel vis os stk = LoopResult.foundCycle → HasCycle g) ∧
    (∀ visF osF, dfsLoop g fuel vis os stk = LoopResult.completed visF osF →
      DfsInv g visF osF [] ∧ (∀ x, vis x = true → visF x = true) ∧
      ∀ x ∈ stk, visF x = true) ∧
    dfsLoop g fuel vis os stk ≠ LoopResult.fuelOut := by
  intro fuel
  induction fuel with
  | zero => intro vis os stk _ hm; exact absurd hm (Nat.not_lt_zero _)
  | succ fuel ih =>
    intro vis os stk hInv hm
    cases stk with
    | nil =>
      refine ⟨?_, ?_, ?_⟩
      · intro h; simp [dfsLoop] at h
      · intro visF osF h
        simp only [dfsLoop, LoopResult.completed.injEq] at h
        obtain ⟨rfl, rfl⟩ := h
        exact ⟨hInv, fun x hx => hx, by simp⟩
      · simp [dfsLoop]
    | cons cur rest =>
      cases hcur : vis cur with
      | false =>
        have heq : dfsLoop g (fuel + 1) vis os (cur :: rest) =
            match scanParents (g.nodes_from cur) (Function.update vis cur true)
              (Function.update os cur true) (cur :: rest) with
            | none => LoopResult.foundCycle
            | some stack' =>
              dfsLoop g fuel (Function.update vis cur true)
                (Function.update os cur true) stack' := by
          simp only [dfsLoop, hcur, if_pos]
        cases hscan : scanParents (g.nodes_from cur) (Function.update vis cur true)
            (Function.update os cur true) (cur :: rest) with
        | none =>
          rw [hscan] at heq
          refine ⟨fun _ => dfs_mark_found hInv hscan, ?_, ?_⟩
          · intro visF osF h; rw [heq] at h; cases h
          · rw [heq]; intro h; cases h
        | some s' =>
          rw [hscan] at heq
          obtain ⟨hInv', hlen, hsub⟩ := dfs_mark_some hInv hcur hscan
          have hm' : loopMeasure g (Function.update vis cur true) s' < fuel := by
            have hlt := loopMeasure_mark_lt (g := g) hcur hlen
            omega
          obtain ⟨ihf, ihc, ihn⟩ := ih (Function.update vis cur true)
            (Function.update os cur true) s' hInv' hm'
          refine ⟨?_, ?_, ?_⟩
          · intro h; rw [heq] at h; exact ihf h
          · intro visF osF h
            rw [heq] at h
            obtain ⟨hIF, hmono, hstk⟩ := ihc visF osF h
            exact ⟨hIF, fun x hx => hmono x (visited_update_mono vis cur x hx),
              fun x hx => hstk x (hsub x hx)⟩
          · rw [heq]; exact ihn
      | true =>
        have heq : dfsLoop g (fuel + 1) vis os (cur :: rest) =
            match scanParents (g.nodes_from cur) vis
              (Function.update os cur false) rest with
            | none => LoopResult.foundCycle
            | some stack' =>
              dfsLoop g fuel vis (Function.update os cur false) stack' := by
          simp only [dfsLoop, hcur]
          norm_num
        cases hscan : scanParents (g.nodes_from cur) vis
            (Function.update os cur false) rest with
        | none =>
          rw [hscan] at heq
          refine ⟨fun _ => dfs_pop_found hInv hscan, ?_, ?_⟩
          · intro visF osF h; rw [heq] at h; cases h
          · rw [heq]; intro h; cases h
        | some s' =>
          rw [hscan] at heq
          obtain ⟨hInv', hs'⟩ := dfs_pop_some hInv hcur hscan
          subst hs'
          have hm' : loopMeasure g vis s' < fuel := by
            have hlt := loopMeasure_pop_lt g vis cur s'
            omega
          obtain ⟨ihf, ihc, ihn⟩ := ih vis (Function.update os cur false) s' hInv' hm'
          refine ⟨?_, ?_, ?_⟩
          · intro h; rw [heq] at h; exact ihf h
          · intro visF osF h
            rw [heq] at h
            obtain ⟨hIF, hmono, hstk⟩ := ihc visF osF h
            refine ⟨hIF, hmono, ?_⟩
            intro x hx
            rcases List.mem_cons.1 hx with rfl | hx
            · exact hmono x hcur
            · exact hstk x hx
          · rw [heq]; exact ihn

end Golem

namespace Golem

variable {n : ℕ}

theorem dfsOuter_spec (g : Graph n) :
    ∀ (l : List (Fin n)) (vis os : Fin n → Bool), DfsInv g vis os [] →
    (dfsOuter g (fuelBound g) l vis os = some true → HasCycle g) ∧
    (dfsOuter g (fuelBound g) l vis os = some false →
      ∃ visF osF, DfsInv g visF osF [] ∧ (∀ x, vis x = true → visF x = true) ∧
        ∀ v ∈ l, visF v = true) ∧
    dfsOuter g (fuelBound g) l vis os ≠ none := by
  intro l
  induction l with
  | nil =>
    intro vis os hInv
    refine ⟨?_, ?_, ?_⟩
    · intro h; simp [dfsOuter] at h
    · intro _; exact ⟨vis, os, hInv, fun x hx => hx, by simp⟩
    · simp [dfsOuter]
  | cons v rest ih =>
    intro vis os hInv
    cases hv : vis v with
    | true =>
      have heq : dfsOuter g (fuelBound g) (v :: rest) vis os =
          dfsOuter g (fuelBound g) rest vis os := by
        simp [dfsOuter, hv]
      rw [heq]
      obtain ⟨h1, h2, h3⟩ := ih vis os hInv
      refine ⟨h1, ?_, h3⟩
      intro hfalse
      obtain ⟨visF, osF, hIF, hmono, hmem⟩ := h2 hfalse
      refine ⟨visF, osF, hIF, hmono, ?_⟩
      intro x hx
      rcases List.mem_cons.1 hx with rfl | hx
      · exact hmono x hv
      · exact hmem x hx
    | false =>
      have hng := grayInv_empty_no_gray hInv.1
      have hInv1 : DfsInv g vis os [v] := by
        refine ⟨?_, hInv.2⟩
        intro x hx
        rw [hng x] at hx; cases hx
      have hmb : loopMeasure g vis [v] < fuelBound g := by
        unfold loopMeasure fuelBound
        have hle := Nat.mul_le_mul_right (maxDeg g + 2) (unvisCount_le vis)
        generalize hA : unvisCount vis * (maxDeg g + 2) = A at *
        generalize hB : n * (maxDeg g + 2) = B at *
        simp only [List.length_singleton]
        omega
      obtain ⟨hf, hc, hnf⟩ := dfsLoop_spec g (fuelBound g) vis os [v] hInv1 hmb
      cases hres : dfsLoop g (fuelBound g) vis os [v] with
      | foundCycle =>
        have heq : dfsOuter g (fuelBound g) (v :: rest) vis os = some true := by
          simp [dfsOuter, hv, hres]
        rw [heq]
        refine ⟨fun _ => hf hres, ?_, ?_⟩
        · intro h; cases h
        · intro h; cases h
      | completed vis' os' =>
        have heq : dfsOuter g (fuelBound g) (v :: rest) vis os =
            dfsOuter g (fuelBound g) rest vis' os' := by
          simp [dfsOuter, hv, hres]
        rw [heq]
        obtain ⟨hIF', hmono', hstk'⟩ := hc vis' os' hres
        obtain ⟨h1, h2, h3⟩ := ih vis' os' hIF'
        refine ⟨h1, ?_, h3⟩
        intro hfalse
        obtain ⟨visF, osF, hIF, hmono, hmem⟩ := h2 hfalse
        refine ⟨visF, osF, hIF, fun x hx => hmono x (hmono' x hx), ?_⟩
        intro x hx
        rcases List.mem_cons.1 hx with rfl | hx
        · exact hmono x (hstk' x (List.mem_singleton_self x))
        · exact hmem x hx
      | fuelOut => exact absurd hres hnf

theorem rank_lt_of_transGen {g : Graph n} {b : List (Fin n)}
    (htopo : ∀ u ∈ b, ∀ p ∈ g.nodes_from u, p ∈ b ∧ b.indexOf p < b.indexOf u)
    (hcomp : ∀ x, x ∈ b) :
    ∀ u v, Relation.TransGen (Edge g) u v → b.indexOf v < b.indexOf u := by
  intro u v h
  induction h with
  | single h1 => exact (htopo u (hcomp u) _ h1).2
  | tail _ h2 ih => exact lt_trans (htopo _ (hcomp _) _ h2).2 ih

theorem no_cycle_of_topo {g : Graph n} {b : List (Fin n)}
    (htopo : ∀ u ∈ b, ∀ p ∈ g.nodes_from u, p ∈ b ∧ b.indexOf p < b.indexOf u)
    (hcomp : ∀ x, x ∈ b) : ¬ HasCycle g := by
  rintro ⟨v, hv⟩
  exact lt_irrefl _ (rank_lt_of_transGen htopo hcomp v v hv)

theorem graph_has_cycle_correct (g : Graph n) : graph_has_cycle g = true ↔ HasCycle g := by
  have hInv0 : DfsInv g (fun _ => false) (fun _ => false) [] := by
    constructor
    · intro x hx; cases hx
    · exact ⟨[], List.nodup_nil, by simp, by simp⟩
  obtain ⟨h1, h2, h3⟩ := dfsOuter_spec g g.nodes (fun _ => false) (fun _ => false) hInv0
  unfold graph_has_cycle
  cases hres : dfsOuter g (fuelBound g) g.nodes (fun _ => false) (fun _ => false) with
  | none => exact absurd hres h3
  | some bres =>
    cases bres with
    | true =>
      constructor
      · intro _; exact h1 hres
      · intro _; rfl
    | false =>
      obtain ⟨visF, osF, hIF, hmono, hmem⟩ := h2 hres
      have hosF := grayInv_empty_no_gray hIF.1
      obtain ⟨b, hnd, hbm, htopo⟩ := hIF.2
      have hcomp : ∀ x, x ∈ b := fun x => (hbm x).2 ⟨hmem x (g.nodes_complete x), hosF x⟩
      have hnc := no_cycle_of_topo htopo hcomp
      constructor
      · intro h; cases h
      · intro h; exact absurd h hnc

/-- C1: the iterative depth-first search `graph_has_cycle` returns
`true` if and only if some node's parent chain (the `nodes_from`
relation followed transitively) revisits itself; in particular it
returns `false` on every acyclic graph. -/
theorem graph_has_cycle_iff (g : Graph n) : graph_has_cycle g = true ↔ HasCycle g :=
  graph_has_cycle_correct g

end Golem

namespace Golem

variable {n : ℕ}

/-! ## Theorems: totality of the depth queries -/

theorem collectGrandparents_some_iff (g : Graph n) (visited : List (Fin n))
    (ps gps : List (Fin n)) :
    collectGrandparents g visited ps = some gps ↔
      (∀ p ∈ ps, p ∉ visited) ∧ gps = ps.flatMap (fun p => g.nodes_from p) := by
  induction ps generalizing gps with
  | nil =>
    simp only [collectGrandparents, Option.some.injEq, List.not_mem_nil, false_implies,
      implies_true, true_and, List.flatMap_nil]
    exact eq_comm
  | cons p rest ih =>
    by_cases hp : p ∈ visited
    · simp [collectGrandparents, hp]
    · rw [show collectGrandparents g visited (p :: rest) =
        (collectGrandparents g visited rest).map (fun gps => g.nodes_from p ++ gps) by
          simp [collectGrandparents, hp]]
      rw [Option.map_eq_some']
      constructor
      · rintro ⟨a, ha, rfl⟩
        obtain ⟨h1, rfl⟩ := (ih a).1 ha
        refine ⟨?_, by simp [List.flatMap_cons]⟩
        intro q hq
        rcases List.mem_cons.1 hq with rfl | hq
        · exact hp
        · exact h1 q hq
      · rintro ⟨h1, rfl⟩
        refine ⟨rest.flatMap (fun p => g.nodes_from p), ?_, by simp [List.flatMap_cons]⟩
        exact (ih _).2 ⟨fun q hq => h1 q (List.mem_cons_of_mem p hq), rfl⟩

theorem ndLoop_total (g : Graph n) :
    ∀ (fuel : ℕ) (visited : List (Fin n)) (depth : ℤ) (ps : List (Fin n)),
    n < visited.toFinset.card + fuel → ndLoop g fuel visited depth ps ≠ none := by
  intro fuel
  induction fuel with
  | zero =>
    intro visited depth ps hcard
    have hle : visited.toFinset.card ≤ n := by
      have h2 := Finset.card_le_univ visited.toFinset
      simpa using h2
    omega
  | succ fuel ih =>
    intro visited depth ps hcard
    cases ps with
    | nil => simp [ndLoop]
    | cons p rest =>
      have heq : ndLoop g (fuel + 1) visited depth (p :: rest) =
          match collectGrandparents g visited (p :: rest) with
          | none => some (-1)
          | some gps => ndLoop g fuel (visited ++ p :: rest) (depth + 1) gps := rfl
      rw [heq]
      cases hcol : collectGrandparents g visited (p :: rest) with
      | none => simp
      | some gps =>
        simp only
        apply ih
        obtain ⟨hall, -⟩ := (collectGrandparents_some_iff g visited (p :: rest) gps).1 hcol
        have hpnot : p ∉ visited := hall p (List.mem_cons_self p rest)
        have hsub : insert p visited.toFinset ⊆ (visited ++ p :: rest).toFinset := by
          intro x hx
          rcases Finset.mem_insert.1 hx with rfl | hx
          · rw [List.mem_toFinset]
            exact List.mem_append_right _ (List.mem_cons_self _ _)
          · rw [List.mem_toFinset] at hx ⊢
            exact List.mem_append_left _ hx
        have hcard2 : visited.toFinset.card + 1 ≤ (visited ++ p :: rest).toFinset.card := by
          have h3 := Finset.card_le_card hsub
          rwa [Finset.card_insert_of_not_mem (by rwa [List.mem_toFinset])] at h3
        omega

theorem ndLoop_cycle (g : Graph n) :
    ∀ (fuel : ℕ) (visited : List (Fin n)) (depth : ℤ) (ps : List (Fin n)),
    (∃ u ∈ ps, Relation.TransGen (Edge g) u u) →
    ndLoop g fuel visited depth ps = none ∨ ndLoop g fuel visited depth ps = some (-1) := by
  intro fuel
  induction fuel with
  | zero =>
    rintro visited depth ps ⟨u, hu, -⟩
    cases ps with
    | nil => cases hu
    | cons p rest => left; rfl
  | succ fuel ih =>
    rintro visited depth ps ⟨u, hu, hcyc⟩
    cases ps with
    | nil => cases hu
    | cons p rest =>
      have heq : ndLoop g (fuel + 1) visited depth (p :: rest) =
          match collectGrandparents g visited (p :: rest) with
          | none => some (-1)
          | some gps => ndLoop g fuel (visited ++ p :: rest) (depth + 1) gps := rfl
      rw [heq]
      cases hcol : collectGrandparents g visited (p :: rest) with
      | none => right; rfl
      | some gps =>
        simp only
        apply ih
        obtain ⟨w, hw1, hw2⟩ := Relation.TransGen.head'_iff.1 hcyc
        refine ⟨w, ?_, Relation.TransGen.tail' hw2 hw1⟩
        obtain ⟨-, rfl⟩ := (collectGrandparents_some_iff g visited (p :: rest) gps).1 hcol
        exact List.mem_flatMap.2 ⟨u, hu, hw1⟩

/-- C10: depth queries are total.  `node_depth` always terminates with
some answer; it answers `-1` whenever the start node lies on a cycle of
the parent relation; and `distance_to_root_level` answers `-1` on every
graph containing a cycle. -/
theorem depth_queries_total (g : Graph n) (node : Fin n) :
    (∃ z, node_depth g node = some z) ∧
    (Relation.TransGen (Edge g) node node → node_depth g node = some (-1)) ∧
    (HasCycle g → distance_to_root_level g node = some (-1)) := by
  have htot : node_depth g node ≠ none := by
    unfold node_depth
    apply ndLoop_total
    have h1 : ([node] : List (Fin n)).toFinset.card = 1 := by simp
    omega
  refine ⟨?_, ?_, ?_⟩
  · cases hnd : node_depth g node with
    | none => exact absurd hnd htot
    | some z => exact ⟨z, rfl⟩
  · intro hcyc
    obtain ⟨w, hw1, hw2⟩ := Relation.TransGen.head'_iff.1 hcyc
    have hstep : ∃ u ∈ g.nodes_from node, Relation.TransGen (Edge g) u u :=
      ⟨w, hw1, Relation.TransGen.tail' hw2 hw1⟩
    rcases ndLoop_cycle g (n + 1) [node] 1 (g.nodes_from node) hstep with h | h
    · exact absurd h htot
    · exact h
  · intro hcyc
    unfold distance_to_root_level
    rw [if_pos ((graph_has_cycle_correct g).2 hcyc)]

/-- Witness for C10 on the concrete two-node cycle `0 ↔ 1`. -/
theorem depth_queries_total_witness :
    (∃ z, node_depth cycle2 0 = some z) ∧ node_depth cycle2 0 = some (-1) ∧
      distance_to_root_level cycle2 0 = some (-1) := by
  have hcyc : Relation.TransGen (Edge cycle2) 0 0 := by
    refine Relation.TransGen.head (b := 1) ?_ (Relation.TransGen.single ?_)
    · show (1 : Fin 2) ∈ cycle2.nodes_from 0
      decide
    · show (0 : Fin 2) ∈ cycle2.nodes_from 1
      decide
  have h := depth_queries_total cycle2 0
  exact ⟨h.1, h.2.1 hcyc, h.2.2 ⟨0, hcyc⟩⟩

end Golem

namespace Golem

/-! ## Theorems: descriptive_id caching, filter_duplicates,
replace_subtrees, determinism -/

theorem descriptive_id_val {g : MGraph} (h : CacheConsistent g) :
    (descriptive_id g).1 = computeId g := by
  cases hc : g.cached_descriptive_id with
  | none => simp [descriptive_id, hc]
  | some d =>
    simp only [descriptive_id, hc]
    exact h d hc

/-- C6: with a consistent cache, every read-only operation leaves the
`descriptive_id` value unchanged, while every modelled mutation clears
the cached fingerprint, so that whenever the mutation changed the
structure the next read yields a different fingerprint. -/
theorem descriptive_id_cache_spec (g : MGraph) (h : CacheConsistent g) :
    (∀ op : GraphReadOp, (descriptive_id (readPost op g)).1 = (descriptive_id g).1) ∧
    (∀ m : MutOp, (mutApply m g).cached_descriptive_id = none ∧
      (computeId (mutApply m g) ≠ computeId g →
        (descriptive_id (mutApply m g)).1 ≠ (descriptive_id g).1)) := by
  have hval : (descriptive_id g).1 = computeId g := descriptive_id_val h
  constructor
  · intro op
    cases op <;> try rfl
    show (descriptive_id (descriptive_id g).2).1 = (descriptive_id g).1
    cases hc : g.cached_descriptive_id with
    | some d => simp [descriptive_id, hc]
    | none => simp [descriptive_id, hc]
  · intro m
    have hnone : (mutApply m g).cached_descriptive_id = none := by
      cases m <;> rfl
    refine ⟨hnone, ?_⟩
    intro hne
    have h2 : (descriptive_id (mutApply m g)).1 = computeId (mutApply m g) := by
      simp [descriptive_id, hnone]
    rw [h2, hval]
    exact hne

/-- Witness for C6: a read leaves the fingerprint of the one-node graph
unchanged; adding a node clears the cache and changes the next read. -/
theorem descriptive_id_cache_spec_witness :
    (descriptive_id (readPost GraphReadOp.get_edges mg0)).1 = (descriptive_id mg0).1 ∧
    (mutApply (MutOp.add_node ⟨1, "b", []⟩) mg0).cached_descriptive_id = none ∧
    (descriptive_id (mutApply (MutOp.add_node ⟨1, "b", []⟩) mg0)).1 ≠
      (descriptive_id mg0).1 := by
  have h := descriptive_id_cache_spec mg0 (by intro d hd; simp [mg0] at hd)
  refine ⟨h.1 GraphReadOp.get_edges, (h.2 _).1, (h.2 _).2 ?_⟩
  simp [computeId, mutApply, mg0]

/-- Sanity check of the modelled mutators, replaying the spec's
`delete_node(reconnect=single)` property on the path A → B → C → D:
3 edges before, 2 after, with A directly connected to C once B is
removed. -/
theorem delete_node_single_path_replay :
    (get_edges_read path4).1.length = 3 ∧
    (get_edges_read (mutApply (MutOp.delete_node 2 ReconnectPolicy.single) path4)).1.length = 2 ∧
    (1, 3) ∈ (get_edges_read (mutApply (MutOp.delete_node 2 ReconnectPolicy.single) path4)).1 := by
  refine ⟨rfl, rfl, ?_⟩
  show (1, 3) ∈ [(1, 3), (3, 4)]
  simp

/-- Sanity check of `delete_subtree` on the same path: deleting the
subtree rooted at C removes C and its exclusive ancestors B and A,
leaving the root D with its severed edge pruned. -/
theorem delete_subtree_path_replay :
    (mutApply (MutOp.delete_subtree 3) path4).mnodes = [⟨4, "D", []⟩] := rfl

/-- C7: `filter_duplicates` returns exactly the archive individuals
whose `(descriptive_id, fitness)` pair does not already occur in the
population: the result is a sub-list of the archive, and membership is
equivalent to being an archive member with no matching pair. -/
theorem filter_duplicates_spec (archive population : List Individual) :
    (filter_duplicates archive population).Sublist archive ∧
    ∀ ind, ind ∈ filter_duplicates archive population ↔
      (ind ∈ archive ∧
        ¬ ∃ q ∈ population, q.descr_id = ind.descr_id ∧ q.fitness = ind.fitness) := by
  constructor
  · exact List.filter_sublist _
  · intro ind
    rw [filter_duplicates, List.mem_filter]
    simp only [Bool.not_eq_true', List.any_eq_false, Bool.and_eq_true, beq_iff_eq, not_and]
    constructor
    · rintro ⟨h1, h2⟩
      refine ⟨h1, ?_⟩
      rintro ⟨q, hq, hid, hfit⟩
      exact h2 q hq hid hfit
    · rintro ⟨h1, h2⟩
      refine ⟨h1, ?_⟩
      intro q hq hid hfit
      exact h2 ⟨q, hq, hid, hfit⟩

/-- Witness for C7, replaying the unit test (fitness values scaled by
10^5, the fourth population graph sharing the second's fingerprint):
exactly the `(1, (-0.80001, 0.25))` individual survives. -/
theorem filter_duplicates_spec_witness :
    filter_duplicates test_archive test_population = [⟨1, [-80001, 25000]⟩] ∧
    (⟨1, [-80001, 25000]⟩ : Individual) ∈ filter_duplicates test_archive test_population := by
  constructor
  · rfl
  · refine ((filter_duplicates_spec test_archive test_population).2 _).2 ⟨?_, ?_⟩
    · simp [test_archive]
    · rintro ⟨q, hq, hid, hfit⟩
      simp only [test_population, List.mem_cons, List.not_mem_nil, or_false] at hq
      rcases hq with rfl | rfl | rfl | rfl <;> simp_all

/-- C8: `replace_subtrees` swaps the chosen subtrees; whenever a
resulting graph would exceed `max_depth` the whole operation is
discarded and both graphs are returned structurally unchanged, so that
bound-compliant inputs always yield bound-compliant outputs. -/
theorem replace_subtrees_spec (g1 g2 : RTree) (p1 p2 : List ℕ) (md : ℕ) :
    (∀ t1 t2, subtreeAt p1 g1 = some t1 → subtreeAt p2 g2 = some t2 →
      ¬((replaceAt p1 g1 t2).depth ≤ md ∧ (replaceAt p2 g2 t1).depth ≤ md) →
      replace_subtrees g1 g2 p1 p2 md = (g1, g2)) ∧
    (g1.depth ≤ md → g2.depth ≤ md →
      (replace_subtrees g1 g2 p1 p2 md).1.depth ≤ md ∧
      (replace_subtrees g1 g2 p1 p2 md).2.depth ≤ md) := by
  constructor
  · intro t1 t2 h1 h2 hviol
    unfold replace_subtrees
    rw [h1, h2]
    simp only
    rw [if_neg hviol]
  · intro hd1 hd2
    unfold replace_subtrees
    cases h1 : subtreeAt p1 g1 with
    | none => exact ⟨hd1, hd2⟩
    | some t1 =>
      cases h2 : subtreeAt p2 g2 with
      | none => exact ⟨hd1, hd2⟩
      | some t2 =>
        simp only
        split_ifs with hcond
        · exact hcond
        · exact ⟨hd1, hd2⟩

/-- Witness for C8, replaying the unit test shape: swapping the
two-node chain into the depth-2 position of the three-node chain would
give depth 4 > 3, so both trees come back unchanged and within the
bound. -/
theorem replace_subtrees_spec_witness :
    replace_subtrees chain3 chain2 [0, 0] [] 3 = (chain3, chain2) ∧
    (replace_subtrees chain3 chain2 [0, 0] [] 3).1.depth ≤ 3 ∧
    (replace_subtrees chain3 chain2 [0, 0] [] 3).2.depth ≤ 3 := by
  have h := replace_subtrees_spec chain3 chain2 [0, 0] [] 3
  have hsub1 : subtreeAt [0, 0] chain3 = some (RTree.node 2 []) := by
    simp [subtreeAt, chain3]
  have hsub2 : subtreeAt [] chain2 = some chain2 := rfl
  have hd4 : (replaceAt [0, 0] chain3 chain2).depth = 4 := by
    simp [replaceAt, chain3, chain2, RTree.depth, List.enum]
  have hviol : ¬((replaceAt [0, 0] chain3 chain2).depth ≤ 3 ∧
      (replaceAt [] chain2 (RTree.node 2 [])).depth ≤ 3) := by
    intro hc
    rw [hd4] at hc
    omega
  have hd1 : chain3.depth ≤ 3 := by simp [RTree.depth, chain3]
  have hd2 : chain2.depth ≤ 3 := by simp [RTree.depth, chain2]
  exact ⟨h.1 _ _ hsub1 hsub2 hviol, h.2 hd1 hd2⟩

theorem history_equals_self (h : List (List Genome)) : history_equals h h = true := by
  unfold history_equals
  rw [List.all_eq_true]
  intro i _
  exact beq_self_eq_true _

/-- C9: the generation history of a launch depends only on the seed,
not on the ambient global generator state the launch starts from: two
launches with the same seed from arbitrary different ambient states
produce equal (hence element-wise equal) histories — in particular two
independent sequential runs, the second starting from whatever global
state the first left behind, as in the determinism test — and a launch
runs exactly 3 generations. -/
theorem random_seed_determines_evolution (seed ambient1 ambient2 : ℕ) :
    (launch_with_seed seed ambient1).1 = (launch_with_seed seed ambient2).1 ∧
    history_equals (launch_with_seed seed ambient1).1
      (launch_with_seed seed (launch_with_seed seed ambient1).2).1 = true ∧
    (launch_with_seed seed ambient1).1.length = 3 := by
  have key : ∀ a b : ℕ, (launch_with_seed seed a).1 = (launch_with_seed seed b).1 := by
    intro a b
    unfold launch_with_seed set_random_seed
    rfl
  refine ⟨key ambient1 ambient2, ?_, ?_⟩
  · rw [key ambient1 (launch_with_seed seed ambient1).2]
    exact history_equals_self _
  · simp [launch_with_seed, set_random_seed, run_generations]

end Golem
